import Mathlib

/-!
Shallow embedding of `src/dynamic_array.h` (v3.1), a macro-based generic
dynamic array for C, and proofs of the specified properties.

Modelling conventions:

* A buffer is `Option (List α)`: `none` is the null pointer / allocation
  failure sentinel, `some b` is a real block holding `b.length` elements.
  Uninitialised memory freshly obtained from the allocator is modelled by a
  `pad` element (its value is never observed by any proved property about
  live contents).
* The allocator calls `DA_MALLOC` / `DA_REALLOC` take an explicit `ok : Bool`
  telling whether that allocation succeeds; on failure they return `none`,
  exactly as the default `malloc`/`realloc` binding returns the null
  sentinel.  A successful allocation of size `s` returns a real block of
  `s` elements, also when `s = 0` (a zero-size block, as glibc `malloc(0)`
  returns a unique non-null pointer and as the spec's allocator contract
  promises "a block of at least `size` bytes" on success).
* `size_t` arithmetic is modelled on `Nat`; the growth computations of the
  source are pure arithmetic on `count`/`capacity`.
* Stores through a null buffer (undefined behaviour in C) leave the buffer
  `none`; the header fields are still updated exactly as the source's
  assignments do, which is what the failure-mode properties talk about.
-/

/-- The `DynamicArray(T)` struct: items pointer, count, capacity
(`src/dynamic_array.h` lines 216-220). -/
structure DArray (α : Type) where
  items : Option (List α)
  count : Nat
  capacity : Nat
  deriving Repr, DecidableEq

/-- `DA_INIT_CAPACITY` (line 192): the default initial capacity, 16. -/
def DA_INIT_CAPACITY : Nat := 16

/-- `DA_INIT` (line 222): the zero value `da_from_parts(0, 0, 0)`. -/
def DA_INIT {α : Type} : DArray α := ⟨none, 0, 0⟩

/-- `DA_MALLOC(ctx, sz)` (line 175): returns a fresh block of `size`
elements on success (`ok = true`), filled with unspecified memory `pad`,
or the null sentinel on failure. -/
def DA_MALLOC {α : Type} (ok : Bool) (size : Nat) (pad : α) : Option (List α) :=
  if ok then some (List.replicate size pad) else none

/-- `DA_REALLOC(ctx, oldptr, oldsz, newsz)` (line 176): on success the new
block's first `min oldsz newsz` elements are the old block's, the rest is
unspecified memory `pad`; on failure the null sentinel is returned.  A null
old pointer acts as an empty old block. -/
def DA_REALLOC {α : Type} (ok : Bool) (old : Option (List α)) (newSize : Nat)
    (pad : α) : Option (List α) :=
  if ok then
    some ((old.getD []).take newSize
          ++ List.replicate (newSize - (old.getD []).length) pad)
  else none

/-- The capacity the source grows to on a single growth step:
`capacity > 0 ? capacity * 2 : DA_INIT_CAPACITY`, the conditional expression
appearing in `da_append` (lines 241-246) and `da_append_many`
(lines 253-255). -/
def grow1 (cap : Nat) : Nat := if 0 < cap then cap * 2 else DA_INIT_CAPACITY

/-- `da_with_capacity(T, ctx, capacity)` (lines 224-225):
`da_from_parts(DA_MALLOC(ctx, capacity * sizeof(T)), 0, capacity)`. -/
def da_with_capacity {α : Type} (ok : Bool) (pad : α) (c : Nat) : DArray α :=
  ⟨DA_MALLOC ok c pad, 0, c⟩

/-- `da_append(ctx, da, item)` (lines 235-247): when `count == capacity`,
reallocate to `grow1 capacity` elements and set `capacity` to it; then store
the item at index `count`, increment `count`, and yield the stored item (the
value of the C assignment expression).  `ok` is the outcome of the (single
possible) `DA_REALLOC` call. -/
def da_append {α : Type} (ok : Bool) (pad : α) (da : DArray α) (item : α) :
    DArray α × α :=
  let da1 : DArray α :=
    if da.count = da.capacity then
      ⟨DA_REALLOC ok da.items (grow1 da.capacity) pad, da.count,
       grow1 da.capacity⟩
    else da
  (⟨da1.items.map (fun b => b.set da1.count item), da1.count + 1,
    da1.capacity⟩, item)

/-- Number of `DA_REALLOC` calls made by `da_append` on `da`: the source
calls it exactly when `count == capacity` (line 236). -/
def da_append_allocs {α : Type} (da : DArray α) : Nat :=
  if da.count = da.capacity then 1 else 0

/-- The element-copying loop shared by `da_append_many` (lines 265-266) and,
via `DA_MEMCPY`, by the byte-copying operations: store the elements of `l`
at consecutive indices `i, i+1, …` of buffer `b`. -/
def storeMany {α : Type} (b : List α) (i : Nat) : List α → List α
  | [] => b
  | x :: xs => storeMany (b.set i x) (i + 1) xs

/-- The `while (v < need) v *= 2;` loop of `da_append_many` (lines 256-257).
The `0 < v` guard is needed for termination in Lean; every call site of the
source has `v ≥ 2`, where the guard is vacuous. -/
def doubleUntil (v need : Nat) : Nat :=
  if 0 < v ∧ v < need then doubleUntil (v * 2) need else v
termination_by need - v
decreasing_by simp_wf; omega

/-- `da_append_many(ctx, da, items, count)` (lines 249-267): if
`count + n > capacity`, double `grow1 capacity` until it reaches
`count + n`, reallocate once to that many elements and update `capacity`;
then copy the `n` source elements to indices `count, …, count + n - 1`,
incrementing `count` each time.  `src` carries the `n` source elements;
`ok` is the outcome of the (single possible) `DA_REALLOC` call. -/
def da_append_many {α : Type} (ok : Bool) (pad : α) (da : DArray α)
    (src : List α) : DArray α :=
  let da1 : DArray α :=
    if da.capacity < da.count + src.length then
      let v := doubleUntil (grow1 da.capacity) (da.count + src.length)
      ⟨DA_REALLOC ok da.items v pad, da.count, v⟩
    else da
  ⟨da1.items.map (fun b => storeMany b da1.count src),
   da1.count + src.length, da1.capacity⟩

/-- Number of `DA_REALLOC` calls made by `da_append_many` on `da` with `n`
source elements: the source calls it exactly when `count + n > capacity`
(line 252). -/
def da_append_many_allocs {α : Type} (da : DArray α) (n : Nat) : Nat :=
  if da.capacity < da.count + n then 1 else 0

/-- `da_pop(da)` (line 276): decrement `count` and yield (as an rvalue)
the element at the new `count`.  Reading out of bounds (empty array,
undefined behaviour in C) yields `pad`. -/
def da_pop {α : Type} (pad : α) (da : DArray α) : DArray α × α :=
  (⟨da.items, da.count - 1, da.capacity⟩,
   (da.items.getD []).getD (da.count - 1) pad)

/-- `da_pop_or(da, expr)` (line 278): `count > 0 ? da_pop(da) : (expr)`.
The default expression is a thunk, evaluated only in the empty branch,
mirroring the conditional operator's short-circuit evaluation. -/
def da_pop_or {α : Type} (pad : α) (da : DArray α) (e : Unit → α) :
    DArray α × α :=
  if 0 < da.count then da_pop pad da else (da, e ())

/-- `StringBuilder` (line 296): `DynamicArray(char)`. -/
abbrev StringBuilder := DArray Char

/-- `sb_strdup(ctx, sb)` (lines 313-319): `DA_MALLOC` a block of
`count + 1` bytes, `DA_MEMCPY` the `count` live bytes into its start,
`DA_MEMSET` the byte at offset `count` to zero, and yield the pointer to
the start of the block.  On allocation failure the copy through the null
pointer is undefined behaviour; the model yields the sentinel. -/
def sb_strdup (ok : Bool) (pad : Char) (sb : StringBuilder) :
    Option (List Char) :=
  (DA_MALLOC ok (sb.count + 1) pad).map (fun block =>
    (storeMany block 0 ((sb.items.getD []).take sb.count)).set sb.count
      (Char.ofNat 0))

/-- The live contents of the array: the elements at indices `[0, count)` of
the buffer. -/
def contents {α : Type} (da : DArray α) : List α :=
  (da.items.getD []).take da.count

/-- Structural well-formedness (the §3 invariants of the spec):
`count ≤ capacity` and the buffer holds exactly `capacity` elements (the
null buffer counts as an empty one, matching the zero value). -/
def wf {α : Type} (da : DArray α) : Prop :=
  da.count ≤ da.capacity ∧ (da.items.getD []).length = da.capacity

instance {α : Type} (da : DArray α) : Decidable (wf da) := by
  unfold wf; infer_instance

/-- `k` successive `da_append` calls with all allocations succeeding. -/
def appendAll {α : Type} (pad : α) (da : DArray α) (xs : List α) : DArray α :=
  xs.foldl (fun d x => (da_append true pad d x).1) da

/-- The spec's (claimed) bulk-growth target: the smallest element of the
doubling sequence starting at `max (capacity * 2) DA_INIT_CAPACITY` that
reaches `need`.  Stated from the spec's words, to be compared with the
source's computation. -/
def specManyGrowth (cap need : Nat) : Nat :=
  doubleUntil (max (cap * 2) DA_INIT_CAPACITY) need

/-- The arrays reachable from the zero value or from a with-capacity
construction (with construction capacity `c`) by `da_append` and
`da_append_many`, with any allocation outcomes. -/
inductive Reach {α : Type} (pad : α) (c : Nat) : DArray α → Prop
  | init : Reach pad c DA_INIT
  | withCap (ok : Bool) : Reach pad c (da_with_capacity ok pad c)
  | append (da : DArray α) (x : α) (ok : Bool) :
      Reach pad c da → Reach pad c (da_append ok pad da x).1
  | appendMany (da : DArray α) (src : List α) (ok : Bool) :
      Reach pad c da → Reach pad c (da_append_many ok pad da src)

/-- The capacity schedule the reachable arrays actually satisfy: zero, or a
power-of-two multiple of the default initial capacity, or a power-of-two
multiple of the capacity `c` supplied at construction. -/
def capSched (c cap : Nat) : Prop :=
  cap = 0 ∨ (∃ j, cap = DA_INIT_CAPACITY * 2 ^ j) ∨ ∃ j, cap = c * 2 ^ j

/-! ## Helper lemmas -/

/-- Writing `x` at index `n` then taking `n + 1` elements appends `x` to the
first `n` elements. -/
theorem take_set_succ {α : Type} (b : List α) (n : Nat) (x : α)
    (h : n < b.length) : (b.set n x).take (n + 1) = b.take n ++ [x] := by
  rw [List.set_eq_take_cons_drop x h]
  have h1 : b.take n ++ x :: b.drop (n + 1)
      = (b.take n ++ [x]) ++ b.drop (n + 1) := by simp
  have h2 : (b.take n ++ [x]).length = n + 1 := by
    simp [Nat.le_of_lt h]
  rw [h1, List.take_left' h2]

/-- The copy loop does not change the buffer's length. -/
theorem storeMany_length {α : Type} (l : List α) :
    ∀ (b : List α) (i : Nat), (storeMany b i l).length = b.length := by
  induction l with
  | nil => intro b i; rfl
  | cons x xs ih => intro b i; simp [storeMany, ih]

/-- Characterisation of the copy loop: copying `l` to indices
`i, …, i + l.length - 1` of `b` (all in range) overwrites exactly that
window with `l`. -/
theorem storeMany_eq {α : Type} (l : List α) :
    ∀ (b : List α) (i : Nat), i + l.length ≤ b.length →
      storeMany b i l = b.take i ++ l ++ b.drop (i + l.length) := by
  induction l with
  | nil => intro b i h; simp [storeMany]
  | cons x xs ih =>
    intro b i h
    simp only [List.length_cons] at h
    have hx : i < b.length := by omega
    simp only [storeMany]
    rw [ih (b.set i x) (i + 1) (by simp; omega)]
    rw [take_set_succ b i x hx, List.drop_set, if_pos (by omega)]
    have h3 : i + 1 + xs.length = i + (xs.length + 1) := by omega
    rw [h3]
    simp

/-- A successful reallocation to a size at least the old one keeps the old
elements and pads with unspecified memory. -/
theorem realloc_true {α : Type} (old : Option (List α)) (n : Nat) (pad : α)
    (h : (old.getD []).length ≤ n) :
    DA_REALLOC true old n pad
      = some (old.getD [] ++ List.replicate (n - (old.getD []).length) pad) := by
  simp [DA_REALLOC, List.take_of_length_le h]

/-- A single growth step strictly increases the capacity. -/
theorem lt_grow1 (cap : Nat) : cap < grow1 cap := by
  unfold grow1 DA_INIT_CAPACITY; split <;> omega

/-- The growth target is positive. -/
theorem grow1_pos (cap : Nat) : 0 < grow1 cap :=
  Nat.lt_of_le_of_lt (Nat.zero_le cap) (lt_grow1 cap)

/-- One-step unfolding of the doubling loop. -/
theorem doubleUntil_unfold (v need : Nat) :
    doubleUntil v need
      = if 0 < v ∧ v < need then doubleUntil (v * 2) need else v := by
  conv_lhs => rw [doubleUntil]

/-- The doubling loop exits immediately when the target is already met. -/
theorem doubleUntil_of_le (v need : Nat) (h : need ≤ v) :
    doubleUntil v need = v := by
  rw [doubleUntil_unfold, if_neg (by omega)]

/-- `v` times a power of two is at least `v`. -/
theorem le_mul_two_pow (v i : Nat) : v ≤ v * 2 ^ i :=
  Nat.le_mul_of_pos_right v (Nat.pos_pow_of_pos i (by omega))

/-- Full characterisation of the doubling loop for positive start values:
the result meets the target, is at least the start, is the start scaled by
a power of two, and is the least such power-of-two scaling meeting the
target. -/
theorem doubleUntil_spec (v need : Nat) (hv : 0 < v) :
    need ≤ doubleUntil v need ∧ v ≤ doubleUntil v need ∧
    (∃ j, doubleUntil v need = v * 2 ^ j) ∧
    (∀ i, need ≤ v * 2 ^ i → doubleUntil v need ≤ v * 2 ^ i) := by
  have haux : ∀ (fuel vv : Nat), 0 < vv → need - vv ≤ fuel →
      need ≤ doubleUntil vv need ∧ vv ≤ doubleUntil vv need ∧
      (∃ j, doubleUntil vv need = vv * 2 ^ j) ∧
      (∀ i, need ≤ vv * 2 ^ i → doubleUntil vv need ≤ vv * 2 ^ i) := by
    intro fuel
    induction fuel with
    | zero =>
      intro vv hvv hf
      have hstop : need ≤ vv := by omega
      rw [doubleUntil_of_le vv need hstop]
      exact ⟨hstop, Nat.le_refl vv, ⟨0, by simp⟩,
        fun i _ => le_mul_two_pow vv i⟩
    | succ fuel ih =>
      intro vv hvv hf
      by_cases hvn : vv < need
      · rw [doubleUntil_unfold, if_pos ⟨hvv, hvn⟩]
        have h2 : 0 < vv * 2 := by omega
        obtain ⟨h1, hself, ⟨j, hj⟩, hmin⟩ := ih (vv * 2) h2 (by omega)
        refine ⟨h1, Nat.le_trans (by omega) hself, ⟨j + 1, by rw [hj]; ring⟩, ?_⟩
        intro i hi
        cases i with
        | zero => simp at hi; omega
        | succ i =>
          have hi2 : need ≤ vv * 2 * 2 ^ i := by
            calc need ≤ vv * 2 ^ (i + 1) := hi
            _ = vv * 2 * 2 ^ i := by ring
          calc doubleUntil (vv * 2) need ≤ vv * 2 * 2 ^ i := hmin i hi2
          _ = vv * 2 ^ (i + 1) := by ring
      · have hstop : need ≤ vv := by omega
        rw [doubleUntil_of_le vv need hstop]
        exact ⟨hstop, Nat.le_refl vv, ⟨0, by simp⟩,
          fun i _ => le_mul_two_pow vv i⟩
  exact haux (need - v) v hv (Nat.le_refl _)

/-- `da_append` when the buffer still has room (`count ≠ capacity`): no
allocator call, just the store and the increment, for either allocation
outcome. -/
theorem da_append_of_ne {α : Type} (ok : Bool) (pad x : α) (da : DArray α)
    (h : da.count ≠ da.capacity) :
    da_append ok pad da x
      = (⟨da.items.map (fun b => b.set da.count x), da.count + 1,
          da.capacity⟩, x) := by
  simp [da_append, h]

/-- `da_append` when the buffer is exactly full (`count = capacity`):
reallocate to `grow1 capacity`, update both fields, then store and
increment. -/
theorem da_append_of_eq {α : Type} (ok : Bool) (pad x : α) (da : DArray α)
    (h : da.count = da.capacity) :
    da_append ok pad da x
      = (⟨(DA_REALLOC ok da.items (grow1 da.capacity) pad).map
            (fun b => b.set da.count x), da.count + 1, grow1 da.capacity⟩,
         x) := by
  simp [da_append, h]

/-- One successful `da_append` on a well-formed array: well-formedness is
preserved, the count goes up by one, the capacity follows the growth rule,
and the new contents are the old contents with the item appended. -/
theorem da_append_step {α : Type} (pad x : α) (da : DArray α) (h : wf da) :
    wf (da_append true pad da x).1 ∧
    (da_append true pad da x).1.count = da.count + 1 ∧
    (da_append true pad da x).1.capacity
      = (if da.count = da.capacity then grow1 da.capacity else da.capacity) ∧
    contents (da_append true pad da x).1 = contents da ++ [x] := by
  obtain ⟨hcnt, hlen⟩ := h
  by_cases hc : da.count = da.capacity
  · rw [da_append_of_eq true pad x da hc]
    have hg := lt_grow1 da.capacity
    rw [realloc_true da.items (grow1 da.capacity) pad
      (by rw [hlen]; exact Nat.le_of_lt hg)]
    set old := da.items.getD [] with hold
    set b1 : List α :=
      old ++ List.replicate (grow1 da.capacity - old.length) pad with hb1
    have hlen1 : b1.length = grow1 da.capacity := by
      simp only [hb1, List.length_append, List.length_replicate]
      rw [hold, hlen]; omega
    have hcb1 : da.count < b1.length := by rw [hlen1]; omega
    simp only [Option.map_some']
    refine ⟨⟨by simp; omega, by simp [hlen1]⟩, by trivial, by rw [if_pos hc], ?_⟩
    simp only [contents, Option.getD_some]
    rw [take_set_succ b1 da.count x hcb1]
    have htk : b1.take da.count = old.take da.count := by
      rw [hb1, List.take_append_eq_append_take]
      have hz : da.count - old.length = 0 := by rw [hold, hlen]; omega
      simp [hz]
    rw [htk, ← hold]
  · rw [da_append_of_ne true pad x da hc]
    have hlt : da.count < da.capacity := Nat.lt_of_le_of_ne hcnt hc
    cases hitems : da.items with
    | none =>
      exfalso
      rw [hitems] at hlen
      simp at hlen
      omega
    | some b =>
      rw [hitems] at hlen
      simp only [Option.getD_some] at hlen
      have hcb : da.count < b.length := by omega
      simp only [hitems, Option.map_some']
      refine ⟨⟨by simp; omega, by simp [hlen]⟩, by trivial, by rw [if_neg hc], ?_⟩
      simp only [contents, hitems, Option.getD_some]
      exact take_set_succ b da.count x hcb

/-- A sequence of successful `da_append` calls on a well-formed array:
well-formedness, count, capacity monotonicity, and contents. -/
theorem appendAll_spec {α : Type} (pad : α) (xs : List α) :
    ∀ da : DArray α, wf da →
      wf (appendAll pad da xs) ∧
      (appendAll pad da xs).count = da.count + xs.length ∧
      da.capacity ≤ (appendAll pad da xs).capacity ∧
      contents (appendAll pad da xs) = contents da ++ xs := by
  induction xs with
  | nil =>
    intro da h
    exact ⟨h, by simp [appendAll], by simp [appendAll], by simp [appendAll]⟩
  | cons x xs ih =>
    intro da h
    obtain ⟨hwf1, hcount1, hcap1, hcont1⟩ := da_append_step pad x da h
    obtain ⟨hwf2, hcount2, hcap2, hcont2⟩ := ih (da_append true pad da x).1 hwf1
    have hfold : appendAll pad da (x :: xs)
        = appendAll pad (da_append true pad da x).1 xs := rfl
    refine ⟨by rw [hfold]; exact hwf2, ?_, ?_, ?_⟩
    · rw [hfold, hcount2, hcount1]; simp; omega
    · rw [hfold]
      refine Nat.le_trans ?_ hcap2
      rw [hcap1]
      split
      · exact Nat.le_of_lt (lt_grow1 da.capacity)
      · exact Nat.le_refl da.capacity
    · rw [hfold, hcont2, hcont1]; simp

/-- The growth step of an already-grown capacity is plain doubling. -/
theorem grow1_grow1 (cap : Nat) : grow1 (grow1 cap) = grow1 cap * 2 := by
  conv_lhs => rw [grow1]
  rw [if_pos (grow1_pos cap)]

/-- The capacity after a sequence of successful `da_append` calls on a
well-formed array: unchanged if everything fits, otherwise the doubling
loop applied to one growth step of the original capacity. -/
theorem appendAll_capacity {α : Type} (pad : α) (xs : List α) :
    ∀ da : DArray α, wf da →
      (appendAll pad da xs).capacity
        = if da.count + xs.length ≤ da.capacity then da.capacity
          else doubleUntil (grow1 da.capacity) (da.count + xs.length) := by
  induction xs with
  | nil =>
    intro da h
    rw [if_pos (by simpa using h.1)]
    simp [appendAll]
  | cons x xs ih =>
    intro da h
    obtain ⟨hwf1, hcount1, hcap1, -⟩ := da_append_step pad x da h
    have hfold : appendAll pad da (x :: xs)
        = appendAll pad (da_append true pad da x).1 xs := rfl
    rw [hfold, ih _ hwf1, hcount1, hcap1]
    by_cases hc : da.count = da.capacity
    · rw [if_pos hc]
      have hn : ¬ (da.count + (x :: xs).length ≤ da.capacity) := by
        simp; omega
      rw [if_neg hn]
      have hN : da.count + 1 + xs.length = da.count + (x :: xs).length := by
        simp; omega
      rw [hN]
      set N := da.count + (x :: xs).length with hNdef
      have hNg : da.capacity < N := by omega
      by_cases hfit : N ≤ grow1 da.capacity
      · rw [if_pos hfit, doubleUntil_unfold (grow1 da.capacity) N,
          if_neg (by omega)]
      · rw [if_neg hfit, grow1_grow1,
          doubleUntil_unfold (grow1 da.capacity) N,
          if_pos ⟨grow1_pos da.capacity, by omega⟩]
    · rw [if_neg hc]
      have hN : da.count + 1 + xs.length = da.count + (x :: xs).length := by
        simp; omega
      rw [hN]

/-- Taking the copied window after the copy loop yields the prefix before
it followed by the copied elements. -/
theorem storeMany_take {α : Type} (l b : List α) (i : Nat)
    (h : i + l.length ≤ b.length) :
    (storeMany b i l).take (i + l.length) = b.take i ++ l := by
  rw [storeMany_eq l b i h]
  have hlen : (b.take i ++ l).length = i + l.length := by
    simp
    omega
  rw [List.take_left' hlen]

/-- `da_append_many` in the growth branch (`count + n > capacity`). -/
theorem da_append_many_of_gt {α : Type} (ok : Bool) (pad : α) (da : DArray α)
    (src : List α) (h : da.capacity < da.count + src.length) :
    da_append_many ok pad da src
      = ⟨(DA_REALLOC ok da.items
            (doubleUntil (grow1 da.capacity) (da.count + src.length)) pad).map
            (fun b => storeMany b da.count src),
         da.count + src.length,
         doubleUntil (grow1 da.capacity) (da.count + src.length)⟩ := by
  simp [da_append_many, h]

/-- `da_append_many` in the no-growth branch (`count + n ≤ capacity`). -/
theorem da_append_many_of_le {α : Type} (ok : Bool) (pad : α) (da : DArray α)
    (src : List α) (h : ¬ da.capacity < da.count + src.length) :
    da_append_many ok pad da src
      = ⟨da.items.map (fun b => storeMany b da.count src),
         da.count + src.length, da.capacity⟩ := by
  simp [da_append_many, h]

/-- One successful `da_append_many` on a well-formed array: preserves
well-formedness, adds the source length to the count, appends the source
elements to the contents, and follows the double-until-fits capacity rule.
-/
theorem da_append_many_spec {α : Type} (pad : α) (da : DArray α)
    (src : List α) (h : wf da) :
    wf (da_append_many true pad da src) ∧
    (da_append_many true pad da src).count = da.count + src.length ∧
    contents (da_append_many true pad da src) = contents da ++ src ∧
    (da_append_many true pad da src).capacity
      = if da.count + src.length ≤ da.capacity then da.capacity
        else doubleUntil (grow1 da.capacity) (da.count + src.length) := by
  obtain ⟨hcnt, hlen⟩ := h
  by_cases hc : da.capacity < da.count + src.length
  · rw [da_append_many_of_gt true pad da src hc]
    set N := da.count + src.length with hN
    set v := doubleUntil (grow1 da.capacity) N with hv
    have hspec := doubleUntil_spec (grow1 da.capacity) N (grow1_pos da.capacity)
    have hvge : N ≤ v := by rw [hv]; exact hspec.1
    have hvstart : grow1 da.capacity ≤ v := by rw [hv]; exact hspec.2.1
    have hvcap : da.capacity ≤ v :=
      Nat.le_trans (Nat.le_of_lt (lt_grow1 da.capacity)) hvstart
    rw [realloc_true da.items v pad (by rw [hlen]; exact hvcap)]
    set old := da.items.getD [] with hold
    set b1 : List α := old ++ List.replicate (v - old.length) pad with hb1
    have hlen1 : b1.length = v := by
      simp only [hb1, List.length_append, List.length_replicate]
      rw [hold, hlen]; omega
    have hrange : da.count + src.length ≤ b1.length := by rw [hlen1]; omega
    simp only [Option.map_some']
    refine ⟨⟨by simp [storeMany_length]; omega,
             by simp [storeMany_length, hlen1]⟩,
            by trivial, ?_, by rw [if_neg (by omega)]⟩
    simp only [contents, Option.getD_some]
    rw [storeMany_take src b1 da.count hrange]
    have htk : b1.take da.count = old.take da.count := by
      rw [hb1, List.take_append_eq_append_take]
      have hz : da.count - old.length = 0 := by rw [hold, hlen]; omega
      simp [hz]
    rw [htk, ← hold]
  · have hfit : da.count + src.length ≤ da.capacity := by omega
    rw [da_append_many_of_le true pad da src hc]
    cases hitems : da.items with
    | none =>
      rw [hitems] at hlen
      simp only [Option.getD_none, List.length_nil] at hlen
      have hcap0 : da.capacity = 0 := hlen.symm
      have hsrc : src = [] := by
        have : src.length = 0 := by omega
        exact List.eq_nil_of_length_eq_zero this
      subst hsrc
      refine ⟨⟨by simpa using hcnt, by simp [hitems, ← hlen]⟩,
              by trivial, ?_, by rw [if_pos hfit]⟩
      simp [contents, hitems]
    | some b =>
      rw [hitems] at hlen
      simp only [Option.getD_some] at hlen
      have hrange : da.count + src.length ≤ b.length := by omega
      simp only [hitems, Option.map_some']
      refine ⟨⟨by simp [storeMany_length]; omega,
               by simp [storeMany_length, hlen]⟩,
              by trivial, ?_, by rw [if_pos hfit]⟩
      simp only [contents, hitems, Option.getD_some]
      rw [storeMany_take src b da.count hrange]

/-- The capacity formula of a single `da_append`, for either allocation
outcome. -/
theorem da_append_capacity {α : Type} (ok : Bool) (pad x : α)
    (da : DArray α) :
    (da_append ok pad da x).1.capacity
      = if da.count = da.capacity then grow1 da.capacity else da.capacity := by
  by_cases hc : da.count = da.capacity
  · rw [da_append_of_eq ok pad x da hc, if_pos hc]
  · rw [da_append_of_ne ok pad x da hc, if_neg hc]

/-- The capacity formula of a single `da_append_many`, for either
allocation outcome. -/
theorem da_append_many_capacity {α : Type} (ok : Bool) (pad : α)
    (da : DArray α) (src : List α) :
    (da_append_many ok pad da src).capacity
      = if da.capacity < da.count + src.length
        then doubleUntil (grow1 da.capacity) (da.count + src.length)
        else da.capacity := by
  by_cases hc : da.capacity < da.count + src.length
  · rw [da_append_many_of_gt ok pad da src hc, if_pos hc]
  · rw [da_append_many_of_le ok pad da src hc, if_neg hc]

/-- The capacity schedule is preserved by one growth step. -/
theorem capSched_grow1 (c cap : Nat) (h : capSched c cap) :
    capSched c (grow1 cap) := by
  by_cases hp : 0 < cap
  · rcases h with h0 | ⟨j, hj⟩ | ⟨j, hj⟩
    · omega
    · right; left
      exact ⟨j + 1, by unfold grow1; rw [if_pos hp, hj]; ring⟩
    · right; right
      exact ⟨j + 1, by unfold grow1; rw [if_pos hp, hj]; ring⟩
  · right; left
    exact ⟨0, by unfold grow1; rw [if_neg hp]; simp⟩

/-- The capacity schedule is preserved by the doubling loop. -/
theorem capSched_doubleUntil (c v need : Nat) (hv : 0 < v)
    (h : capSched c v) : capSched c (doubleUntil v need) := by
  obtain ⟨-, -, ⟨m, hm⟩, -⟩ := doubleUntil_spec v need hv
  rw [hm]
  rcases h with h0 | ⟨j, hj⟩ | ⟨j, hj⟩
  · omega
  · right; left; exact ⟨j + m, by rw [hj]; ring⟩
  · right; right; exact ⟨j + m, by rw [hj]; ring⟩

/-! ## Claims -/

/-- C1: for every sequence of values `xs`, performing `xs.length` successive
`da_append` calls starting from the zero value (items null, count 0,
capacity 0), with every allocation succeeding, yields an array with
`count = xs.length`, `capacity ≥ xs.length`, and `items[i]` equal to the
`i`-th appended value for every `i < xs.length`. -/
theorem C1_appends_from_zero {α : Type} (pad : α) (xs : List α) :
    (appendAll pad DA_INIT xs).count = xs.length ∧
    xs.length ≤ (appendAll pad DA_INIT xs).capacity ∧
    contents (appendAll pad DA_INIT xs) = xs ∧
    ∀ i, i < xs.length →
      ((appendAll pad DA_INIT xs).items.getD []).getD i pad
        = xs.getD i pad := by
  have hwf0 : wf (DA_INIT (α := α)) := ⟨Nat.le_refl 0, rfl⟩
  obtain ⟨hwf, hcount, hcap, hcont⟩ := appendAll_spec pad xs DA_INIT hwf0
  have hcount' : (appendAll pad DA_INIT xs).count = xs.length := by
    rw [hcount]; simp [DA_INIT]
  have hcont' : contents (appendAll pad DA_INIT xs) = xs := by
    rw [hcont]; simp [contents, DA_INIT]
  refine ⟨hcount', by rw [← hcount']; exact hwf.1, hcont', ?_⟩
  intro i hi
  have h1 : (contents (appendAll pad DA_INIT xs)).getD i pad
      = xs.getD i pad := by rw [hcont']
  rw [← h1]
  simp only [contents, List.getD_eq_getElem?_getD]
  rw [List.getElem?_take_of_lt (by rw [hcount']; exact hi)]

/-- Witness for C1 at the concrete input `[3, 7]`. -/
theorem C1_appends_from_zero_witness :
    1 < 2 ∧
    ((appendAll (0 : Nat) DA_INIT [3, 7]).items.getD []).getD 1 0
      = [3, 7].getD 1 0 :=
  ⟨by decide, (C1_appends_from_zero 0 [3, 7]).2.2.2 1 (by decide)⟩

/-- C2: the case analysis of a single `da_append` on a well-formed array:
with room left there is no allocation and only the store and increment
happen; when exactly full with positive capacity it reallocates to exactly
`capacity * 2` elements and updates items and capacity; when
`count = capacity = 0` it reallocates to exactly `DA_INIT_CAPACITY = 16`
elements; in every case the item lands at the old `count`, `count` grows by
exactly one, and the expression yields the placed value. -/
theorem C2_append_case_analysis {α : Type} (pad x : α) (da : DArray α)
    (h : wf da) :
    (da.count < da.capacity →
      da_append_allocs da = 0 ∧
      ∀ ok, da_append ok pad da x
        = (⟨da.items.map (fun b => b.set da.count x), da.count + 1,
            da.capacity⟩, x)) ∧
    (da.count = da.capacity → 0 < da.capacity →
      da_append_allocs da = 1 ∧
      (da_append true pad da x).1.capacity = da.capacity * 2 ∧
      ∃ b, (da_append true pad da x).1.items = some b ∧
        b.length = da.capacity * 2) ∧
    (da.count = 0 → da.capacity = 0 →
      da_append_allocs da = 1 ∧
      (da_append true pad da x).1.capacity = DA_INIT_CAPACITY ∧
      ∃ b, (da_append true pad da x).1.items = some b ∧
        b.length = DA_INIT_CAPACITY) ∧
    (da_append true pad da x).1.count = da.count + 1 ∧
    contents (da_append true pad da x).1 = contents da ++ [x] ∧
    ∀ ok, (da_append ok pad da x).2 = x := by
  obtain ⟨hwf1, hcount1, hcap1, hcont1⟩ := da_append_step pad x da h
  have hsome : ∀ cap2, (da_append true pad da x).1.capacity = cap2 →
      0 < cap2 → ∃ b, (da_append true pad da x).1.items = some b ∧
        b.length = cap2 := by
    intro cap2 hcap2 hpos
    obtain ⟨-, hlen⟩ := hwf1
    cases hitems : (da_append true pad da x).1.items with
    | none =>
      rw [hitems] at hlen
      simp at hlen
      omega
    | some b =>
      rw [hitems] at hlen
      simp only [Option.getD_some] at hlen
      exact ⟨b, rfl, by omega⟩
  refine ⟨?_, ?_, ?_, hcount1, hcont1, fun ok => rfl⟩
  · intro hlt
    refine ⟨by unfold da_append_allocs; rw [if_neg (Nat.ne_of_lt hlt)], ?_⟩
    intro ok
    exact da_append_of_ne ok pad x da (Nat.ne_of_lt hlt)
  · intro hc hpos
    have hcap2 : (da_append true pad da x).1.capacity = da.capacity * 2 := by
      rw [hcap1, if_pos hc]
      unfold grow1
      rw [if_pos hpos]
    exact ⟨by unfold da_append_allocs; rw [if_pos hc], hcap2,
      hsome _ hcap2 (by omega)⟩
  · intro hcnt0 hcap0
    have hc : da.count = da.capacity := by omega
    have hcap2 : (da_append true pad da x).1.capacity = DA_INIT_CAPACITY := by
      rw [hcap1, if_pos hc]
      unfold grow1
      rw [if_neg (by omega)]
    exact ⟨by unfold da_append_allocs; rw [if_pos hc], hcap2,
      hsome _ hcap2 (by unfold DA_INIT_CAPACITY; omega)⟩

/-- Witness for C2 at the concrete array `(some [5, 5], 1, 2)`. -/
theorem C2_append_case_analysis_witness :
    wf (⟨some [5, 5], 1, 2⟩ : DArray Nat) ∧
    (da_append true 0 (⟨some [5, 5], 1, 2⟩ : DArray Nat) 9).1.count = 1 + 1 :=
  ⟨by decide,
   (C2_append_case_analysis 0 9 ⟨some [5, 5], 1, 2⟩ (by decide)).2.2.2.1⟩

/-- C3 counterexample: for the array `(some [0], 1, 1)` (capacity 1,
count 1, legitimately produced by `da_with_capacity` plus one append) and a
one-element source, growth is required (`1 + 1 > 1`), the code grows the
capacity to `2` (doubling from `capacity * 2 = 2`), not to the claimed
smallest element `16` of the doubling sequence starting at
`max (capacity * 2) DA_INIT_CAPACITY`. -/
theorem C3_counterexample :
    1 + 1 > 1 ∧
    (da_append_many true (0 : Nat) ⟨some [0], 1, 1⟩ [5]).capacity = 2 ∧
    specManyGrowth 1 (1 + 1) = 16 ∧
    ¬ (da_append_many true (0 : Nat) ⟨some [0], 1, 1⟩ [5]).capacity
        = specManyGrowth 1 (1 + 1) := by
  have h1 : (da_append_many true (0 : Nat) ⟨some [0], 1, 1⟩ [5]).capacity
      = 2 := by
    simp [da_append_many, doubleUntil, grow1]
  have h2 : specManyGrowth 1 (1 + 1) = 16 := by
    simp [specManyGrowth, doubleUntil, DA_INIT_CAPACITY]
  exact ⟨by omega, h1, h2, by rw [h1, h2]; omega⟩

/-- C3 (amended): when `count + n > capacity`, `da_append_many` sets the
new capacity to the smallest element of the doubling sequence starting at
`capacity * 2` when `capacity > 0` and at `DA_INIT_CAPACITY` otherwise
(not at `max (capacity * 2) DA_INIT_CAPACITY`) that is `≥ count + n`,
performs exactly one reallocation, copies the source into positions
`[count, count + n)`, and adds `n` to `count`; when `count + n ≤ capacity`
it performs no reallocation. -/
theorem C3_append_many_growth {α : Type} (pad : α) (da : DArray α)
    (src : List α) (h : wf da) :
    (da.capacity < da.count + src.length →
      (da_append_many true pad da src).capacity
          = doubleUntil (grow1 da.capacity) (da.count + src.length) ∧
      (∃ j, (da_append_many true pad da src).capacity
          = grow1 da.capacity * 2 ^ j) ∧
      da.count + src.length ≤ (da_append_many true pad da src).capacity ∧
      (∀ i, da.count + src.length ≤ grow1 da.capacity * 2 ^ i →
        (da_append_many true pad da src).capacity
          ≤ grow1 da.capacity * 2 ^ i) ∧
      da_append_many_allocs da src.length = 1) ∧
    (da.count + src.length ≤ da.capacity →
      da_append_many_allocs da src.length = 0 ∧
      (da_append_many true pad da src).capacity = da.capacity) ∧
    contents (da_append_many true pad da src) = contents da ++ src ∧
    (da_append_many true pad da src).count = da.count + src.length := by
  obtain ⟨hwf, hcount, hcont, hcap⟩ := da_append_many_spec pad da src h
  refine ⟨?_, ?_, hcont, hcount⟩
  · intro hc
    have hcap' : (da_append_many true pad da src).capacity
        = doubleUntil (grow1 da.capacity) (da.count + src.length) := by
      rw [hcap, if_neg (by omega)]
    obtain ⟨hge, -, ⟨j, hj⟩, hmin⟩ :=
      doubleUntil_spec (grow1 da.capacity) (da.count + src.length)
        (grow1_pos da.capacity)
    refine ⟨hcap', ⟨j, by rw [hcap', hj]⟩, by rw [hcap']; exact hge, ?_, ?_⟩
    · intro i hi
      rw [hcap']
      exact hmin i hi
    · unfold da_append_many_allocs
      rw [if_pos hc]
  · intro hfit
    refine ⟨?_, by rw [hcap, if_pos hfit]⟩
    unfold da_append_many_allocs
    rw [if_neg (by omega)]

/-- Witness for C3 (amended) at the concrete array `(some [0], 1, 1)` and
source `[5]`. -/
theorem C3_append_many_growth_witness :
    wf (⟨some [0], 1, 1⟩ : DArray Nat) ∧
    contents (da_append_many true 0 (⟨some [0], 1, 1⟩ : DArray Nat) [5])
      = contents (⟨some [0], 1, 1⟩ : DArray Nat) ++ [5] :=
  ⟨by decide,
   (C3_append_many_growth 0 ⟨some [0], 1, 1⟩ [5] (by decide)).2.2.1⟩

/-- C4: on a well-formed array, a single `da_append_many` leaves `count`,
the live contents, and even the final capacity identical to `n` successive
`da_append` calls on the source elements (all allocations succeeding). -/
theorem C4_append_many_refines_appends {α : Type} (pad : α) (da : DArray α)
    (src : List α) (h : wf da) :
    (da_append_many true pad da src).count = (appendAll pad da src).count ∧
    contents (da_append_many true pad da src)
      = contents (appendAll pad da src) ∧
    (da_append_many true pad da src).capacity
      = (appendAll pad da src).capacity := by
  obtain ⟨-, hcount1, hcont1, hcap1⟩ := da_append_many_spec pad da src h
  obtain ⟨-, hcount2, -, hcont2⟩ := appendAll_spec pad src da h
  have hcap2 := appendAll_capacity pad src da h
  exact ⟨by rw [hcount1, hcount2], by rw [hcont1, hcont2],
    by rw [hcap1, hcap2]⟩

/-- Witness for C4 at the concrete array `(some [1, 2], 2, 2)` and source
`[10, 20, 30]`. -/
theorem C4_append_many_refines_appends_witness :
    wf (⟨some [1, 2], 2, 2⟩ : DArray Nat) ∧
    contents (da_append_many true 0 (⟨some [1, 2], 2, 2⟩ : DArray Nat)
        [10, 20, 30])
      = contents (appendAll 0 (⟨some [1, 2], 2, 2⟩ : DArray Nat)
        [10, 20, 30]) :=
  ⟨by decide,
   (C4_append_many_refines_appends 0 ⟨some [1, 2], 2, 2⟩ [10, 20, 30]
      (by decide)).2.1⟩

/-- C5 counterexample: starting from `da_with_capacity` with capacity 3 and
appending four elements, the reachable capacity is 6, which is neither
zero, nor a power-of-two multiple of `DA_INIT_CAPACITY = 16`, nor the
construction capacity 3 itself — refuting the claim read as those three
alternatives. -/
theorem C5_counterexample :
    Reach (0 : Nat) 3 (appendAll 0 (da_with_capacity true 0 3) [1, 2, 3, 4]) ∧
    (appendAll (0 : Nat) (da_with_capacity true 0 3) [1, 2, 3, 4]).capacity
      = 6 ∧
    ¬ ((6 : Nat) = 0 ∨ (∃ j, (6 : Nat) = DA_INIT_CAPACITY * 2 ^ j) ∨
        (6 : Nat) = 3) := by
  refine ⟨?_, by decide, ?_⟩
  · exact Reach.append _ 4 true (Reach.append _ 3 true (Reach.append _ 2 true
      (Reach.append _ 1 true (Reach.withCap true))))
  · rintro (h0 | ⟨j, hj⟩ | h3)
    · omega
    · have hge : (16 : Nat) ≤ 16 * 2 ^ j := le_mul_two_pow 16 j
      unfold DA_INIT_CAPACITY at hj
      omega
    · omega

/-- C5 (amended): for every array reachable from the zero value or from
with-capacity construction (with construction capacity `c`) by any sequence
of append and append-many operations, the capacity is always zero, or a
power-of-two multiple of `DA_INIT_CAPACITY`, or a power-of-two multiple of
the initial capacity `c` supplied at construction. -/
theorem C5_capacity_schedule {α : Type} (pad : α) (c : Nat) (da : DArray α)
    (h : Reach pad c da) : capSched c da.capacity := by
  induction h with
  | init => left; rfl
  | withCap ok => right; right; exact ⟨0, by simp [da_with_capacity]⟩
  | append d x ok hr ih =>
    rw [da_append_capacity]
    split
    · exact capSched_grow1 c d.capacity ih
    · exact ih
  | appendMany d src ok hr ih =>
    rw [da_append_many_capacity]
    split
    · exact capSched_doubleUntil c (grow1 d.capacity) _ (grow1_pos _)
        (capSched_grow1 c d.capacity ih)
    · exact ih

/-- Witness for C5 (amended) at the zero value. -/
theorem C5_capacity_schedule_witness :
    capSched 0 (DA_INIT (α := Nat)).capacity :=
  C5_capacity_schedule 0 0 DA_INIT Reach.init

/-- C6 counterexample: `da_with_capacity` with capacity 0 and a successful
allocation yields `capacity = 0` while `items` is a zero-size block from
the allocator, not the null sentinel — refuting the claimed invariant
"capacity = 0 iff items is the null/sentinel" for the constructed value. -/
theorem C6_counterexample :
    (da_with_capacity true (0 : Nat) 0).capacity = 0 ∧
    ¬ (da_with_capacity true (0 : Nat) 0).items = none := by
  decide

/-- C6 (amended): `da_with_capacity(T, ctx, c)` yields an array whose items
is a buffer of `c` elements obtained from `DA_MALLOC`, whose count is 0 and
whose capacity is `c`; when `c = 0` (and the allocation succeeds) the items
pointer is a zero-size block rather than the null sentinel, and the result
behaves equivalently to the zero value: a `da_append` or a non-empty
`da_append_many` from it yields the identical state, its contents are
empty, and `da_pop_or` yields the default. -/
theorem C6_with_capacity {α : Type} (pad : α) (c : Nat) :
    da_with_capacity true pad c = ⟨some (List.replicate c pad), 0, c⟩ ∧
    (da_with_capacity true pad c).count = 0 ∧
    (da_with_capacity true pad c).capacity = c ∧
    ((da_with_capacity true pad c).items.getD []).length = c ∧
    (∀ x ok, da_append ok pad (da_with_capacity true pad 0) x
        = da_append ok pad (DA_INIT (α := α)) x) ∧
    (∀ src ok, src ≠ [] →
      da_append_many ok pad (da_with_capacity true pad 0) src
        = da_append_many ok pad (DA_INIT (α := α)) src) ∧
    contents (da_with_capacity true pad 0) = contents (DA_INIT (α := α)) ∧
    ∀ e : Unit → α, (da_pop_or pad (da_with_capacity true pad 0) e).2
        = e () := by
  refine ⟨by simp [da_with_capacity, DA_MALLOC], rfl, rfl,
    by simp [da_with_capacity, DA_MALLOC], ?_, ?_, ?_, ?_⟩
  · intro x ok
    simp [da_append, da_with_capacity, DA_MALLOC, DA_INIT, DA_REALLOC]
  · intro src ok hne
    have hlen : 0 < src.length := List.length_pos.mpr hne
    simp [da_append_many, da_with_capacity, DA_MALLOC, DA_INIT, DA_REALLOC,
      hlen]
  · simp [contents, da_with_capacity, DA_MALLOC, DA_INIT]
  · intro e
    simp [da_pop_or, da_with_capacity]

/-- Witness for C6 at element type `Nat`, capacity 2, with the inner
hypothesis discharged at the non-empty source `[4]`. -/
theorem C6_with_capacity_witness :
    ([4] : List Nat) ≠ [] ∧
    da_append_many true (0 : Nat) (da_with_capacity true 0 0) [4]
      = da_append_many true 0 DA_INIT [4] :=
  ⟨by decide, (C6_with_capacity (0 : Nat) 2).2.2.2.2.2.1 [4] true (by decide)⟩

/-- C7: when the reallocation of a growing `da_append` (with
`count = capacity`) or `da_append_many` (with `count + n > capacity`)
fails, afterwards `items` is the null sentinel while `capacity` has already
been updated to the growth target, leaving the array in an inconsistent
(non-well-formed) state. -/
theorem C7_failed_realloc {α : Type} (pad x : α) (da : DArray α)
    (src : List α) :
    (da.count = da.capacity →
      (da_append false pad da x).1.items = none ∧
      (da_append false pad da x).1.capacity = grow1 da.capacity ∧
      ¬ wf (da_append false pad da x).1) ∧
    (da.capacity < da.count + src.length →
      (da_append_many false pad da src).items = none ∧
      (da_append_many false pad da src).capacity
        = doubleUntil (grow1 da.capacity) (da.count + src.length) ∧
      ¬ wf (da_append_many false pad da src)) := by
  constructor
  · intro hc
    rw [da_append_of_eq false pad x da hc]
    have hitems : (DA_REALLOC false da.items (grow1 da.capacity) pad).map
        (fun b => b.set da.count x) = none := by
      simp [DA_REALLOC]
    refine ⟨hitems, rfl, ?_⟩
    rintro ⟨-, hlen⟩
    rw [hitems] at hlen
    simp at hlen
    have := grow1_pos da.capacity
    omega
  · intro hc
    rw [da_append_many_of_gt false pad da src hc]
    have hitems : (DA_REALLOC false da.items
          (doubleUntil (grow1 da.capacity) (da.count + src.length)) pad).map
        (fun b => storeMany b da.count src) = none := by
      simp [DA_REALLOC]
    refine ⟨hitems, rfl, ?_⟩
    rintro ⟨-, hlen⟩
    rw [hitems] at hlen
    simp at hlen
    obtain ⟨-, hstart, -, -⟩ :=
      doubleUntil_spec (grow1 da.capacity) (da.count + src.length)
        (grow1_pos da.capacity)
    have := grow1_pos da.capacity
    omega

/-- Witness for C7 at the concrete full array `(some [5], 1, 1)`. -/
theorem C7_failed_realloc_witness :
    (⟨some [5], 1, 1⟩ : DArray Nat).count
      = (⟨some [5], 1, 1⟩ : DArray Nat).capacity ∧
    (da_append false 0 (⟨some [5], 1, 1⟩ : DArray Nat) 9).1.items = none :=
  ⟨by decide,
   ((C7_failed_realloc 0 9 ⟨some [5], 1, 1⟩ []).1 (by decide)).1⟩

/-- C8: for a well-formed string builder, `sb_strdup` (with a successful
allocation) yields a block of `count + 1` bytes whose first `count` bytes
equal the builder's contents and whose byte at index `count` is zero. -/
theorem C8_sb_strdup (pad : Char) (sb : StringBuilder) (h : wf sb) :
    sb_strdup true pad sb = some (contents sb ++ [Char.ofNat 0]) ∧
    (contents sb ++ [Char.ofNat 0]).length = sb.count + 1 := by
  obtain ⟨hcnt, hlen⟩ := h
  have hble : sb.count ≤ (sb.items.getD []).length := by omega
  have hpreflen : ((sb.items.getD []).take sb.count).length = sb.count := by
    simp; omega
  have h2 : storeMany (List.replicate (sb.count + 1) pad) 0
      ((sb.items.getD []).take sb.count)
      = (sb.items.getD []).take sb.count ++ [pad] := by
    rw [storeMany_eq _ _ 0 (by simp [hpreflen])]
    rw [List.replicate_succ' sb.count pad]
    simp only [List.take_zero, List.nil_append, Nat.zero_add, hpreflen]
    rw [List.drop_left' (by simp)]
  have h3 : (((sb.items.getD []).take sb.count) ++ [pad]).set sb.count
      (Char.ofNat 0)
      = ((sb.items.getD []).take sb.count) ++ [Char.ofNat 0] := by
    rw [List.set_append_right sb.count (Char.ofNat 0)
      (Nat.le_of_eq hpreflen)]
    simp [hpreflen]
  constructor
  · simp only [sb_strdup, DA_MALLOC, if_pos, Option.map_some']
    rw [h2, h3]
    simp [contents]
  · simp [contents]
    omega

/-- Witness for C8 at the concrete builder `(some ['h', 'i', 'x'], 2, 3)`. -/
theorem C8_sb_strdup_witness :
    wf (⟨some ['h', 'i', 'x'], 2, 3⟩ : StringBuilder) ∧
    sb_strdup true 'z' ⟨some ['h', 'i', 'x'], 2, 3⟩
      = some (contents (⟨some ['h', 'i', 'x'], 2, 3⟩ : StringBuilder)
          ++ [Char.ofNat 0]) :=
  ⟨by decide, (C8_sb_strdup 'z' ⟨some ['h', 'i', 'x'], 2, 3⟩ (by decide)).1⟩

/-- C9: when `count > 0`, `da_pop_or` yields exactly `da_pop` and its
result and state are independent of the default expression (so the
default is not evaluated); when `count = 0` it yields the default
expression's value. -/
theorem C9_pop_or_lazy {α : Type} (pad : α) (da : DArray α)
    (e e2 : Unit → α) :
    (0 < da.count →
      da_pop_or pad da e = da_pop pad da ∧
      da_pop_or pad da e = da_pop_or pad da e2) ∧
    (da.count = 0 → (da_pop_or pad da e).2 = e ()) := by
  constructor
  · intro hpos
    rw [da_pop_or, if_pos hpos, da_pop_or, if_pos hpos]
    exact ⟨rfl, rfl⟩
  · intro hzero
    rw [da_pop_or, if_neg (by omega)]

/-- Witness for C9 at the concrete array `(some [3, 1], 2, 2)` with two
different default thunks. -/
theorem C9_pop_or_lazy_witness :
    0 < (⟨some [3, 1], 2, 2⟩ : DArray Nat).count ∧
    da_pop_or 0 (⟨some [3, 1], 2, 2⟩ : DArray Nat) (fun _ => 7)
      = da_pop_or 0 (⟨some [3, 1], 2, 2⟩ : DArray Nat) (fun _ => 8) :=
  ⟨by decide,
   ((C9_pop_or_lazy 0 ⟨some [3, 1], 2, 2⟩ (fun _ => 7) (fun _ => 8)).1
      (by decide)).2⟩

/-- C10: on an empty array, `da_pop_or` leaves the array completely
unchanged — items, count, and capacity all keep their prior values — and
only the default expression's value is returned. -/
theorem C10_pop_or_empty_unchanged {α : Type} (pad : α) (da : DArray α)
    (e : Unit → α) (h : da.count = 0) :
    (da_pop_or pad da e).1 = da ∧
    (da_pop_or pad da e).1.items = da.items ∧
    (da_pop_or pad da e).1.count = da.count ∧
    (da_pop_or pad da e).1.capacity = da.capacity := by
  rw [da_pop_or, if_neg (by omega)]
  exact ⟨rfl, rfl, rfl, rfl⟩

/-- Witness for C10 at the concrete empty array `(some [9, 9], 0, 2)`. -/
theorem C10_pop_or_empty_unchanged_witness :
    (⟨some [9, 9], 0, 2⟩ : DArray Nat).count = 0 ∧
    (da_pop_or 0 (⟨some [9, 9], 0, 2⟩ : DArray Nat) (fun _ => 7)).1
      = ⟨some [9, 9], 0, 2⟩ :=
  ⟨by decide,
   (C10_pop_or_empty_unchanged 0 ⟨some [9, 9], 0, 2⟩ (fun _ => 7)
      (by decide)).1⟩
